import Mathlib

/-!
Verification of the git-time commit-filtering and aggregation pipeline.

The repository's frontend (TypeScript, under `src/src`) defines the data
contracts (`Commit`, `OwnershipData`, `HotspotData`, `ComplexityData` in
`types.ts`) and the chart components.  The backend pipeline
(`GitAnalyzer` in `backend/git_utils.py`) is described by the project
documentation (`docs/PERFORMANCE_SPEEDUP.md`, `spec.md`) but its source
is not part of this tree; the corresponding definitions below are
modelled from the specification and are marked as such.

Strings from the source are embedded as Lean `String`s; character-level
operations work on `String.data` (the underlying `List Char`).  Dates
are embedded at calendar-month granularity (year, month in UTC), which
is the granularity used by the date-window filter and the month
bucketing.
-/

namespace GitTime

/-- UTC calendar date at month granularity, as used by the selection
window and the complexity bucketing (`YYYY-MM`). -/
structure Date where
  year : Nat
  month : Nat
deriving DecidableEq, Repr

/-- Linearises a date to a month index so that dates compare
chronologically. -/
def Date.monthIndex (d : Date) : Nat := d.year * 12 + d.month

/-- Commit-level change statistics (`Commit.stats` in `types.ts`). -/
structure Stats where
  insertions : Nat
  deletions : Nat
  files : Nat
deriving DecidableEq, Repr

/-- The `Commit` record of `src/types.ts`. -/
structure Commit where
  hash : String
  author : String
  email : String
  date : Date
  message : String
  files_changed : List String
  diff : String
  stats : Stats
deriving DecidableEq, Repr

/-- A topic: keyword strings and path-glob patterns (spec section 3). -/
structure TopicDefinition where
  keywords : List String
  paths : List String
deriving DecidableEq, Repr

/-- The selection window of spec section 3. -/
structure SelectionWindow where
  monthsBack : Nat
  maxCommits : Nat
  minCommitsThreshold : Nat
  fallbackMonthsBack : Nat
deriving DecidableEq, Repr

/-! ### Case-insensitive substring matching -/

/-- Lower-cases a character list (case-insensitive matching). -/
def lowerList (l : List Char) : List Char := l.map Char.toLower

/-- Tests whether `p` occurs at the head of `s`. -/
def headMatch : List Char → List Char → Bool
  | [], _ => true
  | _ :: _, [] => false
  | c :: p, d :: s => c == d && headMatch p s

/-- Tests whether `p` occurs as a contiguous sublist of `s`. -/
def subMatch : List Char → List Char → Bool
  | p, [] => headMatch p []
  | p, d :: s => headMatch p (d :: s) || subMatch p (d :: s).tail

/-- Case-insensitive substring test: does `hay` contain `pat`? -/
def containsCI (hay pat : String) : Bool :=
  subMatch (lowerList pat.data) (lowerList hay.data)

/-! ### Path-glob matching -/

/-- Glob matching over character lists: a `*` in the pattern matches any
(possibly empty) sequence of characters, every other pattern character
matches itself. -/
def globChars : List Char → List Char → Bool
  | [], s => s.isEmpty
  | c :: p, s =>
    if c == '*' then
      globChars p s ||
        (match s with
         | [] => false
         | _ :: s2 => globChars (c :: p) s2)
    else
      match s with
      | [] => false
      | d :: s2 => c == d && globChars p s2
termination_by p s => (p.length, s.length)

/-- Does file path `path` match glob pattern `pat`? -/
def globMatch (pat path : String) : Bool := globChars pat.data path.data

/-! ### Topic relevance (spec section 4.2, steps 2 and 5)

Modelled from the spec: the selector's relevance test lives in the
backend `GitAnalyzer`, which is not in this tree.  A commit is relevant
when its message or diff contains a topic keyword (case-insensitive
substring) or a changed file path matches a topic path glob; for
bounded cost only the first `MAX_FILES_PER_COMMIT` paths are inspected.
-/

/-- Per-commit bound on inspected file paths (spec section 4.2 step 5,
`docs/PERFORMANCE_SPEEDUP.md`: "Limits file analysis to first 10 files
per commit"). -/
def MAX_FILES_PER_COMMIT : Nat := 10

/-- Keyword relevance: some topic keyword occurs in the message or the
diff text, case-insensitively. -/
def keywordHit (t : TopicDefinition) (c : Commit) : Bool :=
  t.keywords.any (fun k => containsCI c.message k || containsCI c.diff k)

/-- Path relevance of a single path: some topic glob matches it. -/
def pathHit (t : TopicDefinition) (path : String) : Bool :=
  t.paths.any (fun p => globMatch p path)

/-- The relevance test the walk actually runs: keyword hit OR a glob hit
among the first `MAX_FILES_PER_COMMIT` changed paths. -/
def relevantBounded (t : TopicDefinition) (c : Commit) : Bool :=
  keywordHit t c || (c.files_changed.take MAX_FILES_PER_COMMIT).any (pathHit t)

/-- Unbounded topic relevance, as the spec phrases it: keyword in message
or diff, OR some changed file path matches some topic glob. -/
def relevant (t : TopicDefinition) (c : Commit) : Bool :=
  keywordHit t c || c.files_changed.any (pathHit t)

/-! ### CommitSelector (spec section 4.2)

Modelled from the spec: `GitAnalyzer`'s walk is not in this tree.  The
snapshot's history is embedded as the list of commits in walk order and
the clock as an explicit `now : Date`. -/

/-- Is the commit within `m` months of `now`? -/
def inWindow (now : Date) (m : Nat) (c : Commit) : Bool :=
  decide (now.monthIndex ≤ c.date.monthIndex + m)

/-- One history walk: accumulate commits that are inside the date window
and topic-relevant, stopping as soon as `cap` matches are collected or
history is exhausted (spec section 4.2 step 3). -/
def collectMatches (t : TopicDefinition) (now : Date) (m : Nat) :
    Nat → List Commit → List Commit
  | _, [] => []
  | 0, _ :: _ => []
  | cap + 1, c :: cs =>
    if inWindow now m c && relevantBounded t c then
      c :: collectMatches t now m cap cs
    else
      collectMatches t now m (cap + 1) cs

/-- Modelled from the spec: `CommitSelector.select` (spec section 4.2).
Walk once with `monthsBack`; if fewer than `minCommitsThreshold`
matches were found, re-run the walk once with `fallbackMonthsBack`. -/
def CommitSelector.select (t : TopicDefinition) (w : SelectionWindow)
    (now : Date) (history : List Commit) : List Commit :=
  if (collectMatches t now w.monthsBack w.maxCommits history).length
      < w.minCommitsThreshold then
    collectMatches t now w.fallbackMonthsBack w.maxCommits history
  else
    collectMatches t now w.monthsBack w.maxCommits history

/-- How many history walks a selection performs: the initial walk plus
the single fallback walk when it triggers. -/
def CommitSelector.walksPerformed (t : TopicDefinition) (w : SelectionWindow)
    (now : Date) (history : List Commit) : Nat :=
  if (collectMatches t now w.monthsBack w.maxCommits history).length
      < w.minCommitsThreshold then 2 else 1

/-! ### DiffSummarizer (spec section 4.3)

Modelled from the spec: the backend diff truncation ("200 char limit
with smart line-aware truncation", `docs/PERFORMANCE_SPEEDUP.md`) is not
in this tree.  The excerpt of an over-budget diff is its longest prefix
that fits in the budget and ends with a newline character. -/

/-- Default character budget for diff excerpts (`MAX_DIFF_SIZE` in
`docs/PERFORMANCE_SPEEDUP.md`). -/
def MAX_DIFF_SIZE : Nat := 200

/-- Length of the longest prefix of `l` that has length at most `budget`
and ends with a newline; `0` when no such prefix exists. -/
def newlineCut (budget : Nat) : List Char → Nat
  | [] => 0
  | c :: cs =>
    match budget with
    | 0 => 0
    | b + 1 =>
      let r := newlineCut b cs
      if 0 < r then r + 1 else if c == '\n' then 1 else 0

/-- Line-aware truncation on character lists: a diff within the budget
is kept whole, an over-budget diff is cut at the last newline at or
before the budget. -/
def truncateChars (budget : Nat) (l : List Char) : List Char :=
  if l.length ≤ budget then l else l.take (newlineCut budget l)

/-- Modelled from the spec: `DiffSummarizer`'s diff-excerpt truncation. -/
def DiffSummarizer.truncateDiff (budget : Nat) (s : String) : String :=
  String.mk (truncateChars budget s.data)

/-- Modelled from the spec: `DiffSummarizer.summarize` replaces a
commit's diff by its bounded excerpt. -/
def DiffSummarizer.summarize (budget : Nat) (c : Commit) : Commit :=
  { c with diff := DiffSummarizer.truncateDiff budget c.diff }

/-! ### AggregationEngine (spec section 4.4)

Modelled from the spec: the backend aggregation code is not in this
tree; the record shapes follow `src/types.ts` (`OwnershipData`,
`HotspotData`, `ComplexityData`).  Hotspot line counts are rationals
because commit-level line totals are apportioned evenly across the
files a commit touched.  Complexity periods are month indices (the
`YYYY-MM` key linearised). -/

/-- The `OwnershipData` record of `src/types.ts`: one entry per distinct
author of the selected set. -/
structure OwnershipData where
  author : String
  commits : Nat
  lines_changed : Nat
  first_commit : Date
  last_commit : Date
deriving DecidableEq, Repr

/-- The `HotspotData` record of `src/types.ts`: one entry per distinct
file path touched by the selected set. -/
structure HotspotData where
  file : String
  commits_touching : Nat
  lines_changed : ℚ
deriving DecidableEq, Repr

/-- The `ComplexityData` record of `src/types.ts`: one entry per
calendar month present in the selected set. -/
structure ComplexityData where
  period : Nat
  lines_added : Nat
  lines_deleted : Nat
  files_touched : Nat
deriving DecidableEq, Repr

/-- The aggregate result: the three rollups of spec section 4.4. -/
structure AggregateResult where
  ownership : List OwnershipData
  hotspots : List HotspotData
  complexity : List ComplexityData
deriving DecidableEq, Repr

/-- Total lines changed by one commit: insertions plus deletions. -/
def commitLines (c : Commit) : Nat := c.stats.insertions + c.stats.deletions

/-- The distinct authors of a commit list, in order of first
appearance. -/
def authorsOf (cs : List Commit) : List String := (cs.map Commit.author).dedup

/-- Earlier of two dates (month granularity). -/
def minD (a b : Date) : Date := if b.monthIndex < a.monthIndex then b else a

/-- Later of two dates (month granularity). -/
def maxD (a b : Date) : Date := if a.monthIndex < b.monthIndex then b else a

/-- The ownership record of one author: commit count, summed lines
changed, and the earliest and latest commit dates of that author. -/
def ownershipOf (cs : List Commit) (a : String) : OwnershipData :=
  { author := a
    commits := (cs.filter (fun c => decide (c.author = a))).length
    lines_changed :=
      ((cs.filter (fun c => decide (c.author = a))).map commitLines).sum
    first_commit :=
      match cs.filter (fun c => decide (c.author = a)) with
      | [] => ⟨0, 0⟩
      | c :: rest => rest.foldl (fun d x => minD d x.date) c.date
    last_commit :=
      match cs.filter (fun c => decide (c.author = a)) with
      | [] => ⟨0, 0⟩
      | c :: rest => rest.foldl (fun d x => maxD d x.date) c.date }

/-- The distinct file paths touched by a commit list, in order of first
appearance. -/
def hotspotFiles (cs : List Commit) : List String :=
  ((cs.map Commit.files_changed).flatten).dedup

/-- Even apportionment: a commit's line total divided by the number of
files it touched (spec section 4.4, hotspots). -/
def apportioned (c : Commit) : ℚ :=
  (commitLines c : ℚ) / (c.files_changed.length : ℚ)

/-- The hotspot record of one file: how many commits touched it and the
evenly apportioned lines attributed to it. -/
def hotspotOf (cs : List Commit) (f : String) : HotspotData :=
  { file := f
    commits_touching :=
      (cs.filter (fun c => decide (f ∈ c.files_changed))).length
    lines_changed :=
      ((cs.filter (fun c => decide (f ∈ c.files_changed))).map
        apportioned).sum }

/-- Sort key realising the hotspot ranking: `linesChanged` descending,
then `commitsTouching` descending, then path ascending. -/
def hotspotKey (h : HotspotData) : ℚ ×ₗ (ℤ ×ₗ String) :=
  toLex (-h.lines_changed, toLex (-(h.commits_touching : ℤ), h.file))

/-- The hotspot ordering relation. -/
def hotspotLE (a b : HotspotData) : Prop := hotspotKey a ≤ hotspotKey b

instance : DecidableRel hotspotLE := fun a b =>
  inferInstanceAs (Decidable (hotspotKey a ≤ hotspotKey b))

instance : IsTotal HotspotData hotspotLE :=
  ⟨fun a b => le_total (hotspotKey a) (hotspotKey b)⟩

instance : IsTrans HotspotData hotspotLE :=
  ⟨fun _ _ _ hab hbc => le_trans hab hbc⟩

/-- The distinct month indices present in a commit list. -/
def monthsOf (cs : List Commit) : List Nat :=
  (cs.map (fun c => c.date.monthIndex)).dedup

/-- The distinct months, sorted chronologically ascending. -/
def sortedMonths (cs : List Commit) : List Nat :=
  (monthsOf cs).insertionSort (· ≤ ·)

/-- The complexity bucket of one month: summed insertions and deletions
of that month's commits and the size of the union of files touched. -/
def bucketOf (cs : List Commit) (m : Nat) : ComplexityData :=
  { period := m
    lines_added :=
      ((cs.filter (fun c => decide (c.date.monthIndex = m))).map
        (fun c => c.stats.insertions)).sum
    lines_deleted :=
      ((cs.filter (fun c => decide (c.date.monthIndex = m))).map
        (fun c => c.stats.deletions)).sum
    files_touched :=
      (((cs.filter (fun c => decide (c.date.monthIndex = m))).map
        Commit.files_changed).flatten).dedup.length }

/-- Modelled from the spec: `AggregationEngine.aggregate` derives the
three rollups from the selected commit list.  A pure total function:
the empty list yields the all-empty result. -/
def AggregationEngine.aggregate (cs : List Commit) : AggregateResult :=
  { ownership := (authorsOf cs).map (ownershipOf cs)
    hotspots :=
      (((hotspotFiles cs).map (hotspotOf cs)).insertionSort hotspotLE)
    complexity := (sortedMonths cs).map (bucketOf cs) }

/-! ### Chart components (frontend, `src/src/components`)

These embed the rendering decisions of `OwnershipChart.tsx`,
`HotspotChart.tsx` and `ComplexityTrend.tsx`: each returns a "no data"
placeholder for an absent or empty list and otherwise a chart payload.
An absent prop (`undefined`/`null`, the JS `!data` test) is embedded as
`Option`.  JavaScript's `Array.prototype.reduce` without an initial
value throws on an empty array; it is embedded as `jsReduce`, returning
`Except`, and `ComplexityTrend`'s render is `Except`-valued so that the
reduce hazard stays visible. -/

/-- Outcome of rendering a chart component: the "no data" placeholder or
a chart with its payload. -/
inductive Render (α : Type) where
  | placeholder (msg : String)
  | chart (payload : α)
deriving DecidableEq

/-- JavaScript `reduce` without an initial value: throws on an empty
array, otherwise folds from the first element. -/
def jsReduce {α : Type} (f : α → α → α) : List α → Except String α
  | [] => .error "Reduce of empty array with no initial value"
  | x :: xs => .ok (xs.foldl f x)

/-- Chart payload of `OwnershipChart.tsx`: labels plus the two
datasets. -/
structure OwnershipView where
  labels : List String
  commitCounts : List Nat
  linesCounts : List Nat
deriving DecidableEq

/-- `OwnershipChart` (`src/components/OwnershipChart.tsx`): placeholder
on absent or empty data, otherwise the bar-chart payload. -/
def OwnershipChart.render (data : Option (List OwnershipData)) :
    Render OwnershipView :=
  match data with
  | none => .placeholder "No ownership data available"
  | some l =>
    if l.length = 0 then .placeholder "No ownership data available"
    else .chart ⟨l.map (fun i => i.author), l.map (fun i => i.commits),
      l.map (fun i => i.lines_changed)⟩

/-- The top-hotspots view of `HotspotChart.tsx` line 38:
`data.slice(0, 8)`. -/
def HotspotChart.topHotspots (data : List HotspotData) : List HotspotData :=
  data.take 8

/-- Chart payload of `HotspotChart.tsx`: the top hotspots and their
commit counts. -/
structure HotspotView where
  top : List HotspotData
  commitCounts : List Nat
deriving DecidableEq

/-- `HotspotChart` (`src/components/HotspotChart.tsx`): placeholder on
absent or empty data, otherwise a chart over the top eight hotspots. -/
def HotspotChart.render (data : Option (List HotspotData)) :
    Render HotspotView :=
  match data with
  | none => .placeholder "No hotspot data available"
  | some l =>
    if l.length = 0 then .placeholder "No hotspot data available"
    else .chart ⟨HotspotChart.topHotspots l,
      (HotspotChart.topHotspots l).map (fun i => i.commits_touching)⟩

/-- The trend statistics block of `ComplexityTrend.tsx` lines 139-148,
shown only when `data.length > 1`. -/
structure TrendStats where
  totalPeriods : Nat
  peakPeriod : Nat
deriving DecidableEq

/-- The reducer of `ComplexityTrend.tsx` line 143: keep whichever bucket
has the larger `lines_added + lines_deleted`. -/
def peakBucket (acc curr : ComplexityData) : ComplexityData :=
  if curr.lines_added + curr.lines_deleted
      > acc.lines_added + acc.lines_deleted then curr else acc

/-- Chart payload of `ComplexityTrend.tsx`: the three datasets plus the
optional trend statistics. -/
structure ComplexityView where
  labels : List Nat
  linesAdded : List Nat
  linesDeleted : List Nat
  filesTouched : List Nat
  stats : Option TrendStats
deriving DecidableEq

/-- `ComplexityTrend` (`src/components/ComplexityTrend.tsx`):
placeholder on absent or empty data; otherwise a chart whose statistics
block — containing the unseeded `reduce` for peak activity — is built
only when the list has more than one element. -/
def ComplexityTrend.render (data : Option (List ComplexityData)) :
    Except String (Render ComplexityView) :=
  match data with
  | none => .ok (.placeholder "No complexity trend data available")
  | some l =>
    if l.length = 0 then
      .ok (.placeholder "No complexity trend data available")
    else if 1 < l.length then
      match jsReduce peakBucket l with
      | .error e => .error e
      | .ok peak =>
        .ok (.chart ⟨l.map (fun i => i.period), l.map (fun i => i.lines_added),
          l.map (fun i => i.lines_deleted), l.map (fun i => i.files_touched),
          some ⟨l.length, peak.period⟩⟩)
    else
      .ok (.chart ⟨l.map (fun i => i.period), l.map (fun i => i.lines_added),
        l.map (fun i => i.lines_deleted), l.map (fun i => i.files_touched),
        none⟩)

/-- The commit-details file list of `Timeline.tsx` lines 88-93: the
frontend displays `files_changed.slice(0, 10)`. -/
def Timeline.displayedFiles (c : Commit) : List String :=
  c.files_changed.take 10

/-- The overflow marker of `Timeline.tsx` line 92: "... and N more" is
shown when the commit changed more than ten files. -/
def Timeline.overflowCount (c : Commit) : Nat :=
  c.files_changed.length - 10

/-! ### Sample fixtures used by witness theorems -/

/-- A sample topic: the "auth" topic with one keyword and one path glob. -/
def sampleTopic : TopicDefinition := ⟨["auth"], ["auth/*"]⟩

/-- A sample selection window with the documented defaults scaled to the
constants of `docs/PERFORMANCE_SPEEDUP.md`. -/
def sampleWindow : SelectionWindow :=
  { monthsBack := 30, maxCommits := 20, minCommitsThreshold := 5,
    fallbackMonthsBack := 48 }

/-- A sample commit matching the "auth" topic by message keyword and by
path glob. -/
def sampleCommit : Commit :=
  { hash := "abc123", author := "Ada", email := "ada@example.com",
    date := ⟨2024, 5⟩, message := "Introduce auth middleware",
    files_changed := ["auth/mw.ts"], diff := "+ check()\n",
    stats := ⟨3, 1, 1⟩ }

/-- A sample clock value. -/
def sampleNow : Date := ⟨2024, 8⟩

/-- A second sample commit by a different author touching two files. -/
def sampleCommit2 : Commit :=
  { hash := "def456", author := "Bob", email := "bob@example.com",
    date := ⟨2024, 6⟩, message := "Refactor auth checks",
    files_changed := ["auth/mw.ts", "routes/users.ts"], diff := "",
    stats := ⟨4, 2, 2⟩ }

/-! ### Selector lemmas -/

/-- A walk never collects more commits than its cap. -/
theorem length_collectMatches (t : TopicDefinition) (now : Date) (m : Nat) :
    ∀ (cap : Nat) (hist : List Commit),
      (collectMatches t now m cap hist).length ≤ cap := by
  intro cap hist
  induction hist generalizing cap with
  | nil => cases cap <;> simp [collectMatches]
  | cons c cs ih =>
    cases cap with
    | zero => simp [collectMatches]
    | succ n =>
      by_cases h : (inWindow now m c && relevantBounded t c) = true
      · simp only [collectMatches, h, if_true, List.length_cons]
        exact Nat.succ_le_succ (ih n)
      · simp only [collectMatches, if_neg h]
        exact ih (n + 1)

/-- Every commit a walk collects passed the bounded relevance test and
the date window. -/
theorem mem_collectMatches (t : TopicDefinition) (now : Date) (m : Nat) :
    ∀ (cap : Nat) (hist : List Commit) (c : Commit),
      c ∈ collectMatches t now m cap hist →
        relevantBounded t c = true ∧ inWindow now m c = true := by
  intro cap hist
  induction hist generalizing cap with
  | nil => intro c hc; cases cap <;> simp [collectMatches] at hc
  | cons d cs ih =>
    intro c hc
    cases cap with
    | zero => simp [collectMatches] at hc
    | succ n =>
      by_cases h : (inWindow now m d && relevantBounded t d) = true
      · simp only [collectMatches, h, if_true, List.mem_cons] at hc
        rcases hc with rfl | hc
        · exact ⟨(Bool.and_eq_true _ _ |>.mp h).2, (Bool.and_eq_true _ _ |>.mp h).1⟩
        · exact ih n c hc
      · simp only [collectMatches, if_neg h] at hc
        exact ih (n + 1) c hc

/-- Passing the bounded relevance test implies full topic relevance:
a keyword hit carries over, and a glob hit among the first ten paths is
in particular a glob hit among all paths. -/
theorem relevant_of_relevantBounded (t : TopicDefinition) (c : Commit)
    (h : relevantBounded t c = true) : relevant t c = true := by
  unfold relevantBounded at h
  unfold relevant
  rcases Bool.or_eq_true _ _ |>.mp h with hk | hp
  · exact Bool.or_eq_true _ _ |>.mpr (Or.inl hk)
  · rcases List.any_eq_true.mp hp with ⟨x, hx, hpx⟩
    exact Bool.or_eq_true _ _ |>.mpr
      (Or.inr (List.any_eq_true.mpr ⟨x, List.take_subset _ _ hx, hpx⟩))

/-! ### Truncation lemmas -/

/-- The cut position never exceeds the budget. -/
theorem newlineCut_le_budget (budget : Nat) (l : List Char) :
    newlineCut budget l ≤ budget := by
  induction l generalizing budget with
  | nil => simp [newlineCut]
  | cons c cs ih =>
    cases budget with
    | zero => simp [newlineCut]
    | succ b =>
      simp only [newlineCut]
      by_cases h : 0 < newlineCut b cs
      · simpa [h] using Nat.succ_le_succ (ih b)
      · by_cases hc : (c == '\n') = true <;> simp [h, hc]

/-- A positive cut position marks a prefix that ends with a newline. -/
theorem newlineCut_ends_newline (budget : Nat) (l : List Char)
    (h : 0 < newlineCut budget l) :
    ∃ pre, l.take (newlineCut budget l) = pre ++ ['\n'] := by
  induction l generalizing budget with
  | nil => simp [newlineCut] at h
  | cons c cs ih =>
    cases budget with
    | zero => simp [newlineCut] at h
    | succ b =>
      simp only [newlineCut] at h ⊢
      by_cases hr : 0 < newlineCut b cs
      · rcases ih b hr with ⟨pre, hpre⟩
        refine ⟨c :: pre, ?_⟩
        simp [hr, List.take_succ_cons, hpre]
      · by_cases hc : (c == '\n') = true
        · refine ⟨[], ?_⟩
          simp only [hr, if_false, hc, if_true]
          simp [List.take_succ_cons, (beq_iff_eq ..).mp hc]
        · simp [hr, hc] at h

/-- C1: for every snapshot history, topic and selection window, the
selector returns at most `window.maxCommits` commits, and every
returned commit is topic-relevant — its message or diff contains a
topic keyword case-insensitively, or some changed file path matches a
topic path glob (the two conditions OR'd).  Relevance here is the
unbounded test over all changed paths, which the walk's bounded test
implies. -/
theorem select_bounded_and_relevant (t : TopicDefinition)
    (w : SelectionWindow) (now : Date) (history : List Commit) :
    (CommitSelector.select t w now history).length ≤ w.maxCommits ∧
      ∀ c ∈ CommitSelector.select t w now history, relevant t c = true := by
  constructor
  · unfold CommitSelector.select
    split
    · exact length_collectMatches t now w.fallbackMonthsBack w.maxCommits history
    · exact length_collectMatches t now w.monthsBack w.maxCommits history
  · intro c hc
    unfold CommitSelector.select at hc
    split at hc
    · exact relevant_of_relevantBounded t c
        (mem_collectMatches t now w.fallbackMonthsBack w.maxCommits history c hc).1
    · exact relevant_of_relevantBounded t c
        (mem_collectMatches t now w.monthsBack w.maxCommits history c hc).1

/-- C1 witness: the sample commit is selected for the sample inputs, so
the theorem yields its relevance at a concrete input. -/
theorem select_bounded_and_relevant_witness :
    relevant sampleTopic sampleCommit = true :=
  (select_bounded_and_relevant sampleTopic sampleWindow sampleNow
      [sampleCommit]).2 sampleCommit (by decide)

/-- C2: under the window invariant `fallbackMonthsBack > monthsBack`,
the selector performs the fallback walk (with `fallbackMonthsBack` in
place of `monthsBack`) exactly when the first walk collected strictly
fewer than `minCommitsThreshold` commits; at most two walks ever run
(so widening happens at most once and is not recursive), and widening
the window loses no commit that the narrow window admitted. -/
theorem fallback_widening_iff (t : TopicDefinition) (w : SelectionWindow)
    (now : Date) (history : List Commit)
    (h : w.monthsBack < w.fallbackMonthsBack) :
    (CommitSelector.walksPerformed t w now history = 2 ↔
      (collectMatches t now w.monthsBack w.maxCommits history).length
        < w.minCommitsThreshold) ∧
    CommitSelector.walksPerformed t w now history ≤ 2 ∧
    ((collectMatches t now w.monthsBack w.maxCommits history).length
        < w.minCommitsThreshold →
      CommitSelector.select t w now history
        = collectMatches t now w.fallbackMonthsBack w.maxCommits history) ∧
    (¬ (collectMatches t now w.monthsBack w.maxCommits history).length
        < w.minCommitsThreshold →
      CommitSelector.select t w now history
        = collectMatches t now w.monthsBack w.maxCommits history) ∧
    (∀ c : Commit, inWindow now w.monthsBack c = true →
      inWindow now w.fallbackMonthsBack c = true) := by
  refine ⟨?_, ?_, ?_, ?_, ?_⟩
  · unfold CommitSelector.walksPerformed
    split
    · rename_i hlt; simpa using hlt
    · rename_i hn; simp [hn]
  · unfold CommitSelector.walksPerformed
    split <;> omega
  · intro hlt
    unfold CommitSelector.select
    simp [hlt]
  · intro hge
    unfold CommitSelector.select
    simp [hge]
  · intro c hcw
    unfold inWindow at hcw ⊢
    have := of_decide_eq_true hcw
    exact decide_eq_true (by omega)

/-- C2 witness: the theorem applied to the sample window (whose fallback
period 48 exceeds its base period 30) and an empty history. -/
theorem fallback_widening_iff_witness :
    CommitSelector.walksPerformed sampleTopic sampleWindow sampleNow [] ≤ 2 :=
  (fallback_widening_iff sampleTopic sampleWindow sampleNow [] (by decide)).2.1

/-- C3: a diff no longer than the budget is returned whole; for a diff
strictly longer than the budget the excerpt fits in the budget, is a
prefix of the diff, and — when non-empty — ends exactly at a newline
boundary, never mid-line. -/
theorem truncateDiff_line_boundary (budget : Nat) (s : String) :
    (s.data.length ≤ budget → DiffSummarizer.truncateDiff budget s = s) ∧
    (budget < s.data.length →
      (DiffSummarizer.truncateDiff budget s).data.length ≤ budget ∧
      (∃ k, (DiffSummarizer.truncateDiff budget s).data = s.data.take k) ∧
      ((DiffSummarizer.truncateDiff budget s).data ≠ [] →
        ∃ pre, (DiffSummarizer.truncateDiff budget s).data = pre ++ ['\n'])) := by
  constructor
  · intro hle
    unfold DiffSummarizer.truncateDiff truncateChars
    rw [if_pos hle]
  · intro hgt
    have hne : ¬ s.data.length ≤ budget := by omega
    refine ⟨?_, ?_, ?_⟩
    · show (truncateChars budget s.data).length ≤ budget
      unfold truncateChars
      rw [if_neg hne]
      calc (s.data.take (newlineCut budget s.data)).length
          ≤ newlineCut budget s.data := by simp
        _ ≤ budget := newlineCut_le_budget budget s.data
    · refine ⟨newlineCut budget s.data, ?_⟩
      show truncateChars budget s.data = _
      unfold truncateChars
      rw [if_neg hne]
    · intro hnonempty
      have hcut : 0 < newlineCut budget s.data := by
        by_contra hz
        have hz0 : newlineCut budget s.data = 0 := by omega
        apply hnonempty
        show truncateChars budget s.data = []
        unfold truncateChars
        rw [if_neg hne, hz0, List.take_zero]
      have := newlineCut_ends_newline budget s.data hcut
      rcases this with ⟨pre, hpre⟩
      refine ⟨pre, ?_⟩
      show truncateChars budget s.data = _
      unfold truncateChars
      rw [if_neg hne, hpre]

/-- C3 witness: the theorem applied at budget 5 to the eight-character
diff "ab\ncd\nef"; the excerpt is a non-trivial cut at the second
newline position. -/
theorem truncateDiff_line_boundary_witness :
    (DiffSummarizer.truncateDiff 5
      (String.mk ['a', 'b', '\n', 'c', 'd', '\n', 'e', 'f'])).data.length ≤ 5 :=
  ((truncateDiff_line_boundary 5
      (String.mk ['a', 'b', '\n', 'c', 'd', '\n', 'e', 'f'])).2 (by decide)).1

/-- C4: aggregation is total — in this embedding it is a plain function,
defined on every commit list — and on the empty commit list it returns
exactly the all-empty result; zero commits is a representable result,
not an error. -/
theorem aggregate_total_and_empty :
    (∀ cs : List Commit, ∃ r : AggregateResult,
      AggregationEngine.aggregate cs = r) ∧
    AggregationEngine.aggregate [] =
      { ownership := [], hotspots := [], complexity := [] } :=
  ⟨fun _ => ⟨_, rfl⟩, rfl⟩

/-- Unfolding of the hotspot ordering: `linesChanged` descending, ties
by `commitsTouching` descending, then by path ascending. -/
theorem hotspotLE_iff (a b : HotspotData) :
    hotspotLE a b ↔
      (b.lines_changed < a.lines_changed ∨
        (a.lines_changed = b.lines_changed ∧
          (b.commits_touching < a.commits_touching ∨
            (a.commits_touching = b.commits_touching ∧ a.file ≤ b.file)))) := by
  unfold hotspotLE hotspotKey
  simp only [Prod.Lex.le_iff, neg_lt_neg_iff, neg_inj, Nat.cast_lt,
    Nat.cast_inj]

/-- C5: for every commit list the hotspot roll-up is sorted descending
by `linesChanged`, with ties broken by `commitsTouching` descending and
then by file path ascending; being a pure function of the input, two
runs on the same list give the identical ordering.  The presentation
layer (`HotspotChart.tsx`) shows only the first eight entries of that
list. -/
theorem hotspots_sorted_deterministically (cs : List Commit) :
    ((AggregationEngine.aggregate cs).hotspots).Pairwise (fun a b =>
      b.lines_changed < a.lines_changed ∨
        (a.lines_changed = b.lines_changed ∧
          (b.commits_touching < a.commits_touching ∨
            (a.commits_touching = b.commits_touching ∧ a.file ≤ b.file)))) ∧
    (HotspotChart.topHotspots
        (AggregationEngine.aggregate cs).hotspots).length ≤ 8 ∧
    HotspotChart.topHotspots (AggregationEngine.aggregate cs).hotspots
        ++ ((AggregationEngine.aggregate cs).hotspots).drop 8
      = (AggregationEngine.aggregate cs).hotspots := by
  refine ⟨?_, ?_, ?_⟩
  · have hs := List.sorted_insertionSort hotspotLE
      ((hotspotFiles cs).map (hotspotOf cs))
    exact List.Pairwise.imp (fun hab => (hotspotLE_iff _ _).mp hab) hs
  · show ((AggregationEngine.aggregate cs).hotspots.take 8).length ≤ 8
    simp
  · exact List.take_append_drop 8 _

/-- The sorted month list is strictly increasing: sorting gives the
weak order and deduplication gives distinctness. -/
theorem sortedMonths_strict (cs : List Commit) :
    (sortedMonths cs).Pairwise (· < ·) := by
  have hperm : List.Perm ((monthsOf cs).insertionSort (· ≤ ·))
      (monthsOf cs) := List.perm_insertionSort _ _
  have hnodup : (sortedMonths cs).Nodup :=
    hperm.nodup_iff.mpr (List.nodup_dedup _)
  have hsorted : List.Sorted (· ≤ ·) (sortedMonths cs) :=
    List.sorted_insertionSort _ _
  exact (List.Pairwise.and hsorted hnodup).imp
    (fun hab => lt_of_le_of_ne hab.1 hab.2)

/-- A month index appears among the sorted months exactly when some
commit falls in that month. -/
theorem mem_sortedMonths (cs : List Commit) (m : Nat) :
    m ∈ sortedMonths cs ↔ ∃ c ∈ cs, c.date.monthIndex = m := by
  unfold sortedMonths monthsOf
  rw [List.mem_insertionSort, List.mem_dedup, List.mem_map]

/-- C6: the complexity trend has exactly one bucket per distinct
calendar month that contains a selected commit — months with no commit
are omitted — buckets are strictly chronologically ascending (hence no
duplicate period), and each bucket carries the summed insertions and
deletions of its month's commits and the size of the union of files
touched in that month. -/
theorem complexity_buckets (cs : List Commit) :
    ((AggregationEngine.aggregate cs).complexity).Pairwise
      (fun x y => x.period < y.period) ∧
    (∀ m : Nat,
      (∃ b ∈ (AggregationEngine.aggregate cs).complexity, b.period = m) ↔
        ∃ c ∈ cs, c.date.monthIndex = m) ∧
    (∀ b ∈ (AggregationEngine.aggregate cs).complexity,
      b.lines_added = ((cs.filter (fun c =>
          decide (c.date.monthIndex = b.period))).map
          (fun c => c.stats.insertions)).sum ∧
      b.lines_deleted = ((cs.filter (fun c =>
          decide (c.date.monthIndex = b.period))).map
          (fun c => c.stats.deletions)).sum ∧
      b.files_touched = (((cs.filter (fun c =>
          decide (c.date.monthIndex = b.period))).map
          Commit.files_changed).flatten).dedup.length) := by
  refine ⟨?_, ?_, ?_⟩
  · have : (AggregationEngine.aggregate cs).complexity
        = (sortedMonths cs).map (bucketOf cs) := rfl
    rw [this, List.pairwise_map]
    exact sortedMonths_strict cs
  · intro m
    constructor
    · rintro ⟨b, hb, rfl⟩
      rcases List.mem_map.mp hb with ⟨m2, hm2, rfl⟩
      exact (mem_sortedMonths cs m2).mp hm2
    · intro hc
      refine ⟨bucketOf cs m, List.mem_map_of_mem _
        ((mem_sortedMonths cs m).mpr hc), rfl⟩
  · intro b hb
    rcases List.mem_map.mp hb with ⟨m2, _, rfl⟩
    exact ⟨rfl, rfl, rfl⟩

/-! ### Sum bookkeeping lemmas for the ownership/hotspot cross-check -/

/-- Summing a pointwise sum of two functions splits into two sums. -/
theorem sum_map_add {α M : Type} [AddCommMonoid M] (f g : α → M)
    (l : List α) :
    (l.map (fun x => f x + g x)).sum = (l.map f).sum + (l.map g).sum := by
  induction l with
  | nil => simp
  | cons x xs ih =>
    simp only [List.map_cons, List.sum_cons, ih]
    abel

/-- Over a duplicate-free list containing `k`, summing an indicator of
`k` yields exactly the indicated value. -/
theorem sum_ite_single {κ M : Type} [DecidableEq κ] [AddCommMonoid M]
    (A : List κ) (hA : A.Nodup) (k : κ) (c : M) (hk : k ∈ A) :
    (A.map (fun a => if k = a then c else 0)).sum = c := by
  induction A with
  | nil => cases hk
  | cons a as ih =>
    rcases List.nodup_cons.mp hA with ⟨hnotmem, hnd⟩
    rcases List.mem_cons.mp hk with rfl | hk2
    · have hz : (as.map (fun a => if k = a then c else 0)).sum = 0 := by
        apply List.sum_eq_zero
        intro y hy
        rcases List.mem_map.mp hy with ⟨x, hx, rfl⟩
        exact if_neg (fun he => hnotmem (by rw [he]; exact hx))
      rw [List.map_cons, List.sum_cons, hz, add_zero]
      simp
    · have hka : k ≠ a := fun he => hnotmem (he ▸ hk2)
      simp only [List.map_cons, List.sum_cons, if_neg hka, zero_add]
      exact ih hnd hk2

/-- Splitting the head off a filtered sum: the head contributes exactly
when it satisfies the fiber's equation. -/
theorem filter_cons_sum {α κ M : Type} [DecidableEq κ] [AddCommMonoid M]
    (key : α → κ) (f : α → M) (x : α) (xs : List α) (a : κ) :
    (((x :: xs).filter (fun y => decide (key y = a))).map f).sum
      = (if key x = a then f x else 0)
        + ((xs.filter (fun y => decide (key y = a))).map f).sum := by
  by_cases hxa : key x = a
  · rw [List.filter_cons, if_pos (by simp [hxa]), List.map_cons,
      List.sum_cons, if_pos hxa]
  · rw [List.filter_cons, if_neg (by simp [hxa]), if_neg hxa, zero_add]

/-- Partitioning a list into fibers of a key function and summing each
fiber recovers the total sum. -/
theorem sum_fiber {α κ M : Type} [DecidableEq κ] [AddCommMonoid M]
    (key : α → κ) (f : α → M) (l : List α) :
    (((l.map key).dedup).map
      (fun a => ((l.filter (fun x => decide (key x = a))).map f).sum)).sum
      = (l.map f).sum := by
  induction l with
  | nil => simp
  | cons x xs ih =>
    have hpoint : ∀ a,
        (((x :: xs).filter (fun y => decide (key y = a))).map f).sum
          = (if key x = a then f x else 0)
            + ((xs.filter (fun y => decide (key y = a))).map f).sum :=
      fun a => filter_cons_sum key f x xs a
    by_cases hmem : key x ∈ xs.map key
    · rw [List.map_cons, List.dedup_cons_of_mem hmem,
        List.map_congr_left (fun a _ => hpoint a), sum_map_add,
        sum_ite_single ((xs.map key).dedup) (List.nodup_dedup _) (key x)
          (f x) (List.mem_dedup.mpr hmem), ih]
      simp
    · rw [List.map_cons, List.dedup_cons_of_not_mem hmem, List.map_cons,
        List.sum_cons, hpoint (key x)]
      have hnil : xs.filter (fun y => decide (key y = key x)) = [] := by
        rw [List.filter_eq_nil_iff]
        intro y hy
        simp only [decide_eq_true_eq]
        exact fun he => hmem (List.mem_map.mpr ⟨y, hy, he⟩)
      rw [hnil]
      simp only [if_pos rfl, List.map_nil, List.sum_nil, add_zero]
      have htail : ∀ a ∈ (xs.map key).dedup,
          (((x :: xs).filter (fun y => decide (key y = a))).map f).sum
            = ((xs.filter (fun y => decide (key y = a))).map f).sum := by
        intro a ha
        rw [hpoint a, if_neg, zero_add]
        exact fun he => hmem (by rw [he]; exact List.mem_dedup.mp ha)
      rw [List.map_congr_left htail, ih]
      simp

/-- A sum over a filtered list equals the sum of an indicator over the
whole list. -/
theorem sum_filter_eq_sum_ite {α M : Type} [AddCommMonoid M]
    (p : α → Bool) (f : α → M) (l : List α) :
    ((l.filter p).map f).sum
      = (l.map (fun x => if p x then f x else 0)).sum := by
  induction l with
  | nil => rfl
  | cons x xs ih =>
    by_cases hp : p x = true
    · simp [List.filter_cons, hp, ih]
    · simp [List.filter_cons, hp, ih]

/-- Swapping the order of a double list sum. -/
theorem sum_map_swap {α κ M : Type} [AddCommMonoid M]
    (F : List κ) (cs : List α) (t : κ → α → M) :
    (F.map (fun k => (cs.map (t k)).sum)).sum
      = (cs.map (fun c => (F.map (fun k => t k c)).sum)).sum := by
  induction F with
  | nil =>
    simp only [List.map_nil, List.sum_nil]
    symm
    apply List.sum_eq_zero
    intro y hy
    rcases List.mem_map.mp hy with ⟨c, _, rfl⟩
    simp
  | cons k F2 ih =>
    simp only [List.map_cons, List.sum_cons, ih]
    rw [sum_map_add (fun c => t k c) (fun c => (F2.map (fun k2 => t k2 c)).sum) cs]

/-- Summing an indicator with a constant value counts the filtered
elements. -/
theorem sum_ite_count {κ : Type} (F : List κ) (p : κ → Bool) (q : ℚ) :
    (F.map (fun k => if p k then q else 0)).sum
      = ((F.filter p).length : ℚ) * q := by
  induction F with
  | nil => simp
  | cons k F2 ih =>
    by_cases hp : p k = true
    · simp only [List.map_cons, List.sum_cons, if_pos hp, List.filter_cons,
        hp, if_true, List.length_cons, ih]
      push_cast
      ring
    · simp only [List.map_cons, List.sum_cons, if_neg hp, List.filter_cons,
        hp, ih]
      simp [hp]

/-- Filtering a duplicate-free superlist down to membership in a
duplicate-free sublist preserves the sublist's length. -/
theorem length_filter_of_sub (F : List String) (hF : F.Nodup)
    (l : List String) (hl : l.Nodup) (hsub : ∀ x ∈ l, x ∈ F) :
    (F.filter (fun k => decide (k ∈ l))).length = l.length := by
  apply List.Perm.length_eq
  apply (List.perm_ext_iff_of_nodup (List.Nodup.filter _ hF) hl).mpr
  intro x
  simp only [List.mem_filter, decide_eq_true_eq]
  exact ⟨fun hx => hx.2, fun hx => ⟨hsub x hx, hx⟩⟩

/-- C7: for every commit list whose per-commit file lists are
duplicate-free (and whose line totals vanish when no file is listed),
the total `linesChanged` over ownership records equals the total
`linesChanged` over hotspot records — the even apportionment
redistributes but never loses lines. -/
theorem ownership_hotspot_sum_eq (cs : List Commit)
    (h : ∀ c ∈ cs, c.files_changed.Nodup ∧
      (c.files_changed.length = 0 → commitLines c = 0)) :
    (((AggregationEngine.aggregate cs).ownership).map
      (fun o => (o.lines_changed : ℚ))).sum
      = (((AggregationEngine.aggregate cs).hotspots).map
        (fun hs => hs.lines_changed)).sum := by
  have hL : (((AggregationEngine.aggregate cs).ownership).map
      (fun o => (o.lines_changed : ℚ))).sum
      = (cs.map (fun c => (commitLines c : ℚ))).sum := by
    have e1 : ((AggregationEngine.aggregate cs).ownership).map
        (fun o => (o.lines_changed : ℚ))
        = ((cs.map Commit.author).dedup).map
          (fun a => ((cs.filter (fun c => decide (c.author = a))).map
            (fun c => (commitLines c : ℚ))).sum) := by
      show ((authorsOf cs).map (ownershipOf cs)).map
        (fun o => (o.lines_changed : ℚ)) = _
      rw [List.map_map]
      apply List.map_congr_left
      intro a _
      show (((cs.filter (fun c => decide (c.author = a))).map
        commitLines).sum : ℚ) = _
      rw [Nat.cast_list_sum, List.map_map]
      rfl
    rw [e1, sum_fiber Commit.author (fun c => (commitLines c : ℚ)) cs]
  have hR : (((AggregationEngine.aggregate cs).hotspots).map
      (fun hs => hs.lines_changed)).sum
      = (cs.map (fun c => (commitLines c : ℚ))).sum := by
    have hperm : List.Perm
        ((((hotspotFiles cs).map (hotspotOf cs)).insertionSort
          hotspotLE).map (fun hs => hs.lines_changed))
        (((hotspotFiles cs).map (hotspotOf cs)).map
          (fun hs => hs.lines_changed)) :=
      (List.perm_insertionSort hotspotLE _).map _
    have e0 : (((AggregationEngine.aggregate cs).hotspots).map
        (fun hs => hs.lines_changed)).sum
        = ((((hotspotFiles cs).map (hotspotOf cs)).map
          (fun hs => hs.lines_changed))).sum := hperm.sum_eq
    rw [e0, List.map_map]
    have e1 : (hotspotFiles cs).map
        ((fun hs => hs.lines_changed) ∘ hotspotOf cs)
        = (hotspotFiles cs).map (fun f =>
            (cs.map (fun c => if decide (f ∈ c.files_changed)
              then apportioned c else 0)).sum) := by
      apply List.map_congr_left
      intro f _
      exact sum_filter_eq_sum_ite
        (fun c => decide (f ∈ c.files_changed)) apportioned cs
    rw [e1, sum_map_swap (hotspotFiles cs) cs
      (fun f c => if decide (f ∈ c.files_changed) then apportioned c else 0)]
    have e2 : ∀ c ∈ cs,
        ((hotspotFiles cs).map (fun f =>
          if decide (f ∈ c.files_changed) then apportioned c else 0)).sum
          = (commitLines c : ℚ) := by
      intro c hc
      rw [sum_ite_count (hotspotFiles cs)
        (fun f => decide (f ∈ c.files_changed)) (apportioned c)]
      have hcount : ((hotspotFiles cs).filter (fun f =>
          decide (f ∈ c.files_changed))).length
          = c.files_changed.length := by
        apply length_filter_of_sub _ (List.nodup_dedup _) _ (h c hc).1
        intro x hx
        exact List.mem_dedup.mpr (List.mem_flatten.mpr
          ⟨c.files_changed, List.mem_map_of_mem _ hc, hx⟩)
      rw [hcount]
      unfold apportioned
      by_cases hz : c.files_changed.length = 0
      · rw [hz, (h c hc).2 hz]
        simp
      · rw [mul_comm]
        exact div_mul_cancel₀ _ (Nat.cast_ne_zero.mpr hz)
    rw [List.map_congr_left e2]
  rw [hL, hR]

/-- C7 witness: the theorem applied to a concrete two-commit list (one
single-file commit, one two-file commit by a different author), whose
side condition holds by computation. -/
theorem ownership_hotspot_sum_eq_witness :
    (((AggregationEngine.aggregate [sampleCommit, sampleCommit2]).ownership).map
      (fun o => (o.lines_changed : ℚ))).sum
      = (((AggregationEngine.aggregate [sampleCommit, sampleCommit2]).hotspots).map
        (fun hs => hs.lines_changed)).sum :=
  ownership_hotspot_sum_eq [sampleCommit, sampleCommit2] (by decide)

/-- C6 witness: the theorem's per-bucket conclusion instantiated at the
single bucket produced by the one-commit sample list (month index
2024·12+5). -/
theorem complexity_buckets_witness :
    (bucketOf [sampleCommit] 24293).lines_added
      = (([sampleCommit].filter (fun c =>
          decide (c.date.monthIndex = (bucketOf [sampleCommit] 24293).period))).map
          (fun c => c.stats.insertions)).sum ∧
    (bucketOf [sampleCommit] 24293).lines_deleted
      = (([sampleCommit].filter (fun c =>
          decide (c.date.monthIndex = (bucketOf [sampleCommit] 24293).period))).map
          (fun c => c.stats.deletions)).sum ∧
    (bucketOf [sampleCommit] 24293).files_touched
      = ((([sampleCommit].filter (fun c =>
          decide (c.date.monthIndex = (bucketOf [sampleCommit] 24293).period))).map
          Commit.files_changed).flatten).dedup.length :=
  (complexity_buckets [sampleCommit]).2.2
    (bucketOf [sampleCommit] 24293) (by decide)

/-- C9 counterexample: a commit with four changed files — the Timeline
detail view (`Timeline.tsx`, `files_changed.slice(0, 10)`) displays all
four of them, so the displayed file list is not capped at three. -/
theorem timeline_files_not_capped_at_three :
    ¬ ((Timeline.displayedFiles
      { hash := "h1", author := "A", email := "a@x", date := ⟨2024, 1⟩,
        message := "m", files_changed := ["a.ts", "b.ts", "c.ts", "d.ts"],
        diff := "", stats := ⟨1, 1, 4⟩ }).length ≤ 3) := by decide

/-- C9 (amended): the frontend's displayed file list for a commit is
capped at ten entries, taken in order of appearance (a prefix of the
commit's changed-file list), with an overflow note counting the files
beyond the tenth; the three-most-relevant-files cap of
`docs/PERFORMANCE_SPEEDUP.md` concerns the backend summariser, not this
display. -/
theorem timeline_files_capped_at_ten (c : Commit) :
    (Timeline.displayedFiles c).length ≤ 10 ∧
    Timeline.displayedFiles c ++ c.files_changed.drop 10
      = c.files_changed ∧
    Timeline.overflowCount c
      = c.files_changed.length - (Timeline.displayedFiles c).length := by
  refine ⟨?_, List.take_append_drop 10 _, ?_⟩
  · simp [Timeline.displayedFiles]
  · simp only [Timeline.overflowCount, Timeline.displayedFiles,
      List.length_take]
    omega

/-- C10: every chart component answers absent or empty data with its
"no data available" placeholder rather than throwing; `ComplexityTrend`
always renders successfully — in particular its unseeded reduce (which
would throw on an empty array) is reached only when the data has more
than one element, a singleton yielding a chart without the statistics
block. -/
theorem charts_guard_empty_data :
    (∀ od : Option (List OwnershipData),
      (OwnershipChart.render od
          = .placeholder "No ownership data available"
        ↔ od = none ∨ od = some [])) ∧
    (∀ hd : Option (List HotspotData),
      (HotspotChart.render hd = .placeholder "No hotspot data available"
        ↔ hd = none ∨ hd = some [])) ∧
    (∀ cd : Option (List ComplexityData),
      ∃ r, ComplexityTrend.render cd = .ok r) ∧
    (∀ cd : Option (List ComplexityData),
      (ComplexityTrend.render cd
          = .ok (.placeholder "No complexity trend data available")
        ↔ cd = none ∨ cd = some [])) ∧
    (∀ b : ComplexityData,
      ComplexityTrend.render (some [b])
        = .ok (.chart ⟨[b.period], [b.lines_added], [b.lines_deleted],
            [b.files_touched], none⟩)) := by
  refine ⟨?_, ?_, ?_, ?_, ?_⟩
  · intro od
    match od with
    | none => simp [OwnershipChart.render]
    | some [] => simp [OwnershipChart.render]
    | some (x :: xs) => simp [OwnershipChart.render]
  · intro hd
    match hd with
    | none => simp [HotspotChart.render]
    | some [] => simp [HotspotChart.render]
    | some (x :: xs) => simp [HotspotChart.render]
  · intro cd
    match cd with
    | none => exact ⟨_, rfl⟩
    | some [] => exact ⟨_, rfl⟩
    | some [a] => exact ⟨_, rfl⟩
    | some (a :: b :: t2) =>
      simp only [ComplexityTrend.render, List.length_cons]
      rw [if_neg (by omega), if_pos (by omega)]
      simp [jsReduce]
  · intro cd
    match cd with
    | none => simp [ComplexityTrend.render]
    | some [] => simp [ComplexityTrend.render]
    | some [a] => simp [ComplexityTrend.render]
    | some (a :: b :: t2) =>
      simp only [ComplexityTrend.render, List.length_cons]
      rw [if_neg (by omega), if_pos (by omega)]
      simp [jsReduce]
  · intro b
    rfl

end GitTime
